import Mathlib

/-!
Verification development for the ECG pulse-measurement repository.

Byte-level protocol code (`utils.py`, `virtual_sender.py`, `parser.py`) is
embedded over `List ℕ` (each element a byte value), and the signal-processing
code (`main.py`) over `ℚ` as idealized real arithmetic.  Machine integers are
modelled as `ℕ` with explicit masking where the source masks.
-/

/-- CRC-16/CCITT-FALSE inner round, from `utils.py` `crc16_ccitt`:
one conditional shift/XOR step, masked to 16 bits. -/
def crc16_round (crc : ℕ) : ℕ :=
  if crc &&& 0x8000 ≠ 0 then ((crc <<< 1) &&& 0xFFFF) ^^^ 0x1021
  else (crc <<< 1) &&& 0xFFFF

/-- Eight rounds of `crc16_round` (the `for _ in range(8)` loop). -/
def crc16_rounds : ℕ → ℕ → ℕ
  | 0, crc => crc
  | n + 1, crc => crc16_rounds n (crc16_round crc)

/-- Per-byte CRC step: `crc ^= b << 8` followed by 8 rounds. -/
def crc16_byte (crc b : ℕ) : ℕ :=
  crc16_rounds 8 (crc ^^^ (b <<< 8))

/-- `crc16_ccitt` from `utils.py`: fold over the data bytes starting from
`0xFFFF`, final result masked to 16 bits. -/
def crc16_ccitt (data : List ℕ) : ℕ :=
  (data.foldl crc16_byte 0xFFFF) &&& 0xFFFF

/-- Little-endian 16-bit encoding, as produced by `struct.pack('<H', v)`
for an in-range value. -/
def packU16 (v : ℕ) : List ℕ := [v % 256, v / 256 % 256]

/-- Payload bytes contributed by one `(sample_id, adc)` pair in
`virtual_sender.py` `make_frame`: `struct.pack('<HH', sid & 0xFFFF, adc & 0xFFFF)`. -/
def encodeSample (p : ℕ × ℕ) : List ℕ :=
  packU16 (p.1 &&& 0xFFFF) ++ packU16 (p.2 &&& 0xFFFF)

/-- `make_frame` from `virtual_sender.py`.  Returns `none` when
`bytes([length])` would raise (payload longer than 255 bytes): the Python code
raises `ValueError` there.  Otherwise the frame is
`header ++ LEN ++ TYPE ++ payload ++ CRC16-LE`. -/
def make_frame (samples : List (ℕ × ℕ)) : Option (List ℕ) :=
  let payload := (samples.map encodeSample).flatten
  if payload.length ≤ 255 then
    let body := payload.length :: 0x01 :: payload
    let c := crc16_ccitt body
    some (0xAA :: 0x55 :: body ++ [c % 256, c / 256 % 256])
  else none

/-- First index of an occurrence of the 2-byte header `0xAA 0x55`, as computed
by `bytearray.find(HEADER)` in `parser.py` (`none` for Python's `-1`). -/
def findHeader : List ℕ → Option ℕ
  | [] => none
  | [_] => none
  | a :: b :: t => if a = 0xAA ∧ b = 0x55 then some 0 else (findHeader (b :: t)).map (· + 1)

/-- One parsed entry returned by `Parser.feed`: a decoded ADC sample
(for TYPE `0x01`) or a raw unknown-type frame, mirroring the two dict shapes
in `parser.py`. -/
inductive PSample where
  | adcS (sample_id adc : ℕ) (raw_frame : List ℕ)
  | rawS (typ : ℕ) (raw_frame : List ℕ)
deriving DecidableEq, Repr

/-- Decoding of a TYPE-`0x01` payload: `n = len(payload) // 4` leading 4-byte
groups, each unpacked as `(sample_id : u16 LE, adc : u16 LE)`; trailing bytes
beyond the last complete group are ignored. -/
def decodePairs : List ℕ → List (ℕ × ℕ)
  | a :: b :: c :: d :: rest => (a + 256 * b, c + 256 * d) :: decodePairs rest
  | _ => []

/-- Fuel-indexed version of the `while True` loop in `Parser.feed`
(`parser.py`).  The fuel only serves to make the recursion structural; it is
never exhausted when it exceeds the buffer length (each iteration that
continues the loop strictly shrinks the buffer).  Returns the remaining
buffer and the parsed results, in order. -/
def feedLoopF : ℕ → List ℕ → List ℕ × List PSample
  | 0, buf => (buf, [])
  | fuel + 1, buf =>
    if buf.length < 6 then (buf, [])
    else
      match findHeader buf with
      | none => ([], [])
      | some idx =>
        let b1 := buf.drop idx
        if b1.length < 4 then (b1, [])
        else
          let len := b1.getD 2 0
          let total := 6 + len
          if b1.length < total then (b1, [])
          else
            let frame := b1.take total
            let recv_crc := frame.getD (total - 2) 0 + 256 * frame.getD (total - 1) 0
            let calcCrc := crc16_ccitt ((frame.drop 2).take (total - 4))
            if calcCrc ≠ recv_crc then
              feedLoopF fuel (b1.drop 1)
            else
              let typ := frame.getD 3 0
              let payload := (frame.drop 4).take len
              let emitted :=
                if typ = 0x01 then
                  (decodePairs payload).map (fun p => PSample.adcS p.1 p.2 frame)
                else [PSample.rawS typ frame]
              let rest := feedLoopF fuel (b1.drop total)
              (rest.1, emitted ++ rest.2)

/-- The loop of `Parser.feed` on a buffer: `feedLoopF` with enough fuel. -/
def feedLoop (buf : List ℕ) : List ℕ × List PSample :=
  feedLoopF (buf.length + 1) buf

/-- The parser state: the internal accumulation buffer of the `Parser` class. -/
structure Parser where
  buffer : List ℕ
deriving DecidableEq, Repr

/-- `Parser.feed` from `parser.py`: extend the buffer with the incoming data
and run the frame-extraction loop, returning the new state and the parsed
samples. -/
def Parser.feed (p : Parser) (data : List ℕ) : Parser × List PSample :=
  let r := feedLoop (p.buffer ++ data)
  (⟨r.1⟩, r.2)

/-- Feed a sequence of chunks one `feed` call at a time, concatenating the
outputs. -/
def feedMany (p : Parser) : List (List ℕ) → Parser × List PSample
  | [] => (p, [])
  | c :: cs =>
    let r := p.feed c
    let r' := feedMany r.1 cs
    (r'.1, r.2 ++ r'.2)

lemma crc16_ccitt_lt (data : List ℕ) : crc16_ccitt data < 65536 :=
  Nat.lt_succ_of_le Nat.and_le_right

lemma and_ffff_eq_self {x : ℕ} (h : x < 65536) : x &&& 0xFFFF = x := by
  have h65535 : (0xFFFF : ℕ) = 2 ^ 16 - 1 := by norm_num
  rw [h65535, Nat.and_pow_two_sub_one_eq_mod]
  omega

lemma and_ffff_lt (x : ℕ) : x &&& 0xFFFF < 65536 :=
  Nat.lt_succ_of_le Nat.and_le_right

lemma packU16_decode {v : ℕ} (h : v < 65536) : v % 256 + 256 * (v / 256 % 256) = v := by
  have h1 : v / 256 < 256 := by omega
  rw [Nat.mod_eq_of_lt h1, Nat.mod_add_div]

lemma findHeader_header (t : List ℕ) : findHeader (0xAA :: 0x55 :: t) = some 0 := by
  simp [findHeader]

lemma findHeader_some_drop :
    ∀ (l : List ℕ) (idx : ℕ), findHeader l = some idx →
      l.drop idx = 0xAA :: 0x55 :: l.drop (idx + 2) := by
  intro l
  induction l with
  | nil => intro idx h; simp [findHeader] at h
  | cons a tail ih =>
    intro idx h
    cases tail with
    | nil => simp [findHeader] at h
    | cons b t =>
      rw [findHeader] at h
      split at h
      · rename_i hc
        obtain ⟨ha, hb⟩ := hc
        obtain rfl : idx = 0 := by simpa using h.symm
        subst ha; subst hb; rfl
      · obtain ⟨j, hj, rfl⟩ : ∃ j, findHeader (b :: t) = some j ∧ idx = j + 1 := by
          cases hfb : findHeader (b :: t) with
          | none => rw [hfb] at h; simp at h
          | some j => rw [hfb] at h; simp at h; exact ⟨j, rfl, h.symm⟩
        simpa using ih j hj

lemma findHeader_some_le {l : List ℕ} {idx : ℕ} (h : findHeader l = some idx) :
    idx + 2 ≤ l.length := by
  have hd := findHeader_some_drop l idx h
  have := congrArg List.length hd
  simp [List.length_drop] at this
  omega

lemma findHeader_append_none_right :
    ∀ (xs ys : List ℕ), findHeader (xs ++ ys) = none → findHeader ys = none := by
  intro xs
  induction xs with
  | nil => intro ys h; simpa using h
  | cons x xs ih =>
    intro ys h
    apply ih
    cases hxy : xs ++ ys with
    | nil => rfl
    | cons w rest =>
      rw [List.cons_append, hxy, findHeader] at h
      split at h
      · simp at h
      · cases hfw : findHeader (w :: rest) with
        | none => rfl
        | some j => rw [hfw] at h; simp at h

lemma findHeader_append_none_left :
    ∀ (xs ys : List ℕ), findHeader (xs ++ ys) = none → findHeader xs = none := by
  intro xs
  induction xs with
  | nil => intro ys h; rfl
  | cons x xs ih =>
    intro ys h
    cases xs with
    | nil => rfl
    | cons w rest =>
      rw [List.cons_append, List.cons_append, findHeader] at h
      rw [findHeader]
      split at h
      · simp at h
      · rename_i hc
        rw [if_neg hc]
        have hwr : findHeader (w :: (rest ++ ys)) = none := by
          cases hfw : findHeader (w :: (rest ++ ys)) with
          | none => rfl
          | some j => rw [hfw] at h; simp at h
        have := ih ys (by simpa using hwr)
        rw [this]; rfl

lemma findHeader_append_header :
    ∀ (xs t : List ℕ), findHeader xs = none →
      findHeader (xs ++ 0xAA :: 0x55 :: t) = some xs.length := by
  intro xs
  induction xs with
  | nil => intro t _; simpa using findHeader_header t
  | cons x xs ih =>
    intro t h
    cases xs with
    | nil =>
      show findHeader (x :: 0xAA :: 0x55 :: t) = some 1
      rw [findHeader]
      have hc : ¬ (x = 0xAA ∧ (0xAA : ℕ) = 0x55) := by
        rintro ⟨-, hbad⟩; simp at hbad
      rw [if_neg hc, findHeader_header]
      rfl
    | cons w rest =>
      rw [findHeader] at h
      split at h
      · simp at h
      · rename_i hc
        have hwr : findHeader (w :: rest) = none := by
          cases hfw : findHeader (w :: rest) with
          | none => rfl
          | some j => rw [hfw] at h; simp at h
        have := ih t hwr
        simp only [List.cons_append] at this ⊢
        rw [findHeader, if_neg hc, this]
        simp

lemma feedLoopF_congr :
    ∀ (f1 f2 : ℕ) (buf : List ℕ), buf.length < f1 → buf.length < f2 →
      feedLoopF f1 buf = feedLoopF f2 buf := by
  intro f1
  induction f1 with
  | zero => intro f2 buf h1 _; omega
  | succ f ih =>
    intro f2 buf h1 h2
    obtain ⟨g, rfl⟩ : ∃ g, f2 = g + 1 := ⟨f2 - 1, by omega⟩
    simp only [feedLoopF]
    split
    · rfl
    · rename_i hlen
      split
      · rfl
      · rename_i idx hfh
        split
        · rfl
        · rename_i h4
          split
          · rfl
          · rename_i htot
            split
            · apply ih
              · simp only [List.length_drop]; omega
              · simp only [List.length_drop]; omega
            · have hrec : feedLoopF f ((buf.drop idx).drop (6 + (buf.drop idx).getD 2 0)) =
                  feedLoopF g ((buf.drop idx).drop (6 + (buf.drop idx).getD 2 0)) := by
                apply ih
                · simp only [List.length_drop]; omega
                · simp only [List.length_drop]; omega
              rw [hrec]

/-- Unfolding equation for `feedLoop`: it satisfies the recurrence that
directly transcribes the `while True` loop of `Parser.feed`. -/
theorem feedLoop_eq (buf : List ℕ) : feedLoop buf =
    if buf.length < 6 then (buf, [])
    else
      match findHeader buf with
      | none => ([], [])
      | some idx =>
        let b1 := buf.drop idx
        if b1.length < 4 then (b1, [])
        else
          let len := b1.getD 2 0
          let total := 6 + len
          if b1.length < total then (b1, [])
          else
            let frame := b1.take total
            let recv_crc := frame.getD (total - 2) 0 + 256 * frame.getD (total - 1) 0
            let calcCrc := crc16_ccitt ((frame.drop 2).take (total - 4))
            if calcCrc ≠ recv_crc then
              feedLoop (b1.drop 1)
            else
              let typ := frame.getD 3 0
              let payload := (frame.drop 4).take len
              let emitted :=
                if typ = 0x01 then
                  (decodePairs payload).map (fun p => PSample.adcS p.1 p.2 frame)
                else [PSample.rawS typ frame]
              let rest := feedLoop (b1.drop total)
              (rest.1, emitted ++ rest.2) := by
  conv_lhs => rw [feedLoop]
  simp only [feedLoopF]
  split
  · rfl
  · rename_i hlen
    split
    · rfl
    · rename_i idx hfh
      split
      · rfl
      · rename_i h4
        split
        · rfl
        · rename_i htot
          split
          · rw [feedLoop]
            apply feedLoopF_congr
            · simp only [List.length_drop]; omega
            · simp only [List.length_drop]; omega
          · have hrec : feedLoopF buf.length ((buf.drop idx).drop (6 + (buf.drop idx).getD 2 0)) =
                feedLoop ((buf.drop idx).drop (6 + (buf.drop idx).getD 2 0)) := by
              rw [feedLoop]
              apply feedLoopF_congr
              · simp only [List.length_drop]; omega
              · simp only [List.length_drop]; omega
            rw [hrec]

lemma getD_add4 (x : List ℕ) (n : ℕ) : x.getD (4 + n) 0 = (x.drop 4).getD n 0 := by
  simp [List.getD_eq_getElem?_getD, List.getElem?_drop]

/-- A complete well-formed frame is fully consumed in one loop pass:
the buffer empties and the frame's decoded content is emitted. -/
theorem feedLoop_frame (L t : ℕ) (payload : List ℕ) (c0 c1 : ℕ)
    (hp : payload.length = L)
    (hcrc : crc16_ccitt (L :: t :: payload) = c0 + 256 * c1) :
    feedLoop (0xAA :: 0x55 :: L :: t :: (payload ++ [c0, c1])) =
      ([],
        if t = 0x01 then
          (decodePairs payload).map
            (fun p => PSample.adcS p.1 p.2 (0xAA :: 0x55 :: L :: t :: (payload ++ [c0, c1])))
        else [PSample.rawS t (0xAA :: 0x55 :: L :: t :: (payload ++ [c0, c1]))]) := by
  set F := 0xAA :: 0x55 :: L :: t :: (payload ++ [c0, c1]) with hF
  have hFlen : F.length = 6 + L := by simp [hF, hp]; omega
  have hdrop4 : F.drop 4 = payload ++ [c0, c1] := by rw [hF]; rfl
  have htakeL : (payload ++ [c0, c1]).take L = payload := by
    rw [← hp]; exact List.take_left payload [c0, c1]
  rw [feedLoop_eq]
  rw [if_neg (by omega : ¬ F.length < 6)]
  rw [hF, findHeader_header]
  simp only [List.drop_zero, ← hF]
  rw [if_neg (by omega : ¬ F.length < 4)]
  have hgetD2 : F.getD 2 0 = L := by rw [hF]; rfl
  rw [hgetD2]
  rw [if_neg (by omega : ¬ F.length < 6 + L)]
  have htake : F.take (6 + L) = F := by
    rw [← hFlen]; exact List.take_length F
  rw [htake]
  have hc0 : F.getD (6 + L - 2) 0 = c0 := by
    have h1 : 6 + L - 2 = 4 + L := by omega
    rw [h1, getD_add4, hdrop4]
    rw [List.getD_eq_getElem?_getD, List.getElem?_append_right (by omega : payload.length ≤ L)]
    simp [hp]
  have hc1 : F.getD (6 + L - 1) 0 = c1 := by
    have h1 : 6 + L - 1 = 4 + (L + 1) := by omega
    rw [h1, getD_add4, hdrop4]
    rw [List.getD_eq_getElem?_getD,
      List.getElem?_append_right (by omega : payload.length ≤ L + 1)]
    simp [hp]
  have hspan : (F.drop 2).take (6 + L - 4) = L :: t :: payload := by
    have h2 : F.drop 2 = L :: t :: (payload ++ [c0, c1]) := by rw [hF]; rfl
    have h1 : 6 + L - 4 = (L + 1) + 1 := by omega
    rw [h2, h1, List.take_succ_cons, List.take_succ_cons, htakeL]
  rw [hc0, hc1, hspan]
  rw [if_neg (by rw [hcrc]; simp : ¬ crc16_ccitt (L :: t :: payload) ≠ c0 + 256 * c1)]
  have hgetD3 : F.getD 3 0 = t := by rw [hF]; rfl
  rw [hgetD3]
  have hpay : (F.drop 4).take L = payload := by rw [hdrop4, htakeL]
  rw [hpay]
  have hdropTot : F.drop (6 + L) = [] := by
    rw [← hFlen]; exact List.drop_length F
  rw [hdropTot]
  have hempty : feedLoop ([] : List ℕ) = ([], []) := by rw [feedLoop_eq]; rfl
  rw [hempty]
  simp

/-- A strict prefix of a frame-shaped buffer is held unchanged with no
output: the loop waits for more input. -/
theorem feedLoop_wait (L t : ℕ) (payload : List ℕ) (c0 c1 : ℕ)
    (hp : payload.length = L) (k : ℕ) (hk : k < 6 + L) :
    feedLoop ((0xAA :: 0x55 :: L :: t :: (payload ++ [c0, c1])).take k) =
      ((0xAA :: 0x55 :: L :: t :: (payload ++ [c0, c1])).take k, []) := by
  set F := 0xAA :: 0x55 :: L :: t :: (payload ++ [c0, c1]) with hF
  have hFlen : F.length = 6 + L := by simp [hF, hp]; omega
  have hklen : (F.take k).length = k := by
    rw [List.length_take]; omega
  by_cases h6 : k < 6
  · rw [feedLoop_eq, if_pos (by omega : (F.take k).length < 6)]
  · obtain ⟨r, hr⟩ : ∃ r, k = r + 6 := ⟨k - 6, by omega⟩
    have hshape : F.take k = 0xAA :: 0x55 :: L :: t :: ((payload ++ [c0, c1]).take (r + 2)) := by
      rw [hF, hr]
      have e1 : r + 6 = (((((r + 2) + 1) + 1) + 1) + 1) := by omega
      rw [e1, List.take_succ_cons, List.take_succ_cons, List.take_succ_cons,
        List.take_succ_cons]
    rw [feedLoop_eq, if_neg (by omega : ¬ (F.take k).length < 6)]
    rw [hshape, findHeader_header]
    simp only [List.drop_zero, ← hshape]
    rw [if_neg (by omega : ¬ (F.take k).length < 4)]
    have hgetD2 : (F.take k).getD 2 0 = L := by rw [hshape]; rfl
    rw [hgetD2]
    rw [if_pos (by omega : (F.take k).length < 6 + L)]

/-- Resynchronization: once the header is located at `idx`, the loop behaves
exactly as if the leading `idx` bytes had never been buffered. -/
theorem feedLoop_sync (buf : List ℕ) (idx : ℕ) (h : findHeader buf = some idx)
    (h6 : 6 ≤ buf.length - idx) :
    feedLoop buf = feedLoop (buf.drop idx) := by
  have hdr := findHeader_some_drop buf idx h
  have hlen : 6 ≤ buf.length := by
    have := findHeader_some_le h
    omega
  have hdlen : (buf.drop idx).length = buf.length - idx := by
    simp [List.length_drop]
  conv_rhs => rw [feedLoop_eq]
  rw [if_neg (by omega : ¬ (buf.drop idx).length < 6)]
  rw [hdr, findHeader_header]
  simp only [List.drop_zero, ← hdr]
  conv_lhs => rw [feedLoop_eq]
  rw [if_neg (by omega : ¬ buf.length < 6), h]

lemma encodeSample_length (p : ℕ × ℕ) : (encodeSample p).length = 4 := rfl

lemma payload_length (samples : List (ℕ × ℕ)) :
    ((samples.map encodeSample).flatten).length = 4 * samples.length := by
  induction samples with
  | nil => rfl
  | cons p ps ih =>
    simp [List.flatten_cons, encodeSample_length, ih]
    omega

lemma decodePairs_encode (samples : List (ℕ × ℕ))
    (hb : ∀ p ∈ samples, p.1 < 65536 ∧ p.2 < 65536) :
    decodePairs ((samples.map encodeSample).flatten) = samples := by
  induction samples with
  | nil => rfl
  | cons p ps ih =>
    have hp := hb p (List.mem_cons_self p ps)
    have hps : ∀ q ∈ ps, q.1 < 65536 ∧ q.2 < 65536 :=
      fun q hq => hb q (List.mem_cons_of_mem p hq)
    have h1 : p.1 &&& 0xFFFF = p.1 := and_ffff_eq_self hp.1
    have h2 : p.2 &&& 0xFFFF = p.2 := and_ffff_eq_self hp.2
    show decodePairs
        ((packU16 (p.1 &&& 0xFFFF) ++ packU16 (p.2 &&& 0xFFFF)) ++
          (ps.map encodeSample).flatten) = p :: ps
    rw [h1, h2]
    show ((p.1 % 256 + 256 * (p.1 / 256 % 256), p.2 % 256 + 256 * (p.2 / 256 % 256)) ::
        decodePairs ((ps.map encodeSample).flatten)) = p :: ps
    rw [packU16_decode hp.1, packU16_decode hp.2, ih hps]

/-- Structure of the successful result of `make_frame`. -/
lemma make_frame_eq (samples : List (ℕ × ℕ)) (hn : samples.length ≤ 63) :
    make_frame samples =
      some (0xAA :: 0x55 :: (4 * samples.length) :: 0x01 ::
        ((samples.map encodeSample).flatten ++
          [crc16_ccitt ((4 * samples.length) :: 0x01 :: (samples.map encodeSample).flatten) % 256,
           crc16_ccitt ((4 * samples.length) :: 0x01 :: (samples.map encodeSample).flatten)
             / 256 % 256])) := by
  rw [make_frame]
  simp only [payload_length]
  rw [if_pos (by omega : 4 * samples.length ≤ 255)]
  simp

lemma feedLoop_nil : feedLoop ([] : List ℕ) = ([], []) := by rw [feedLoop_eq]; rfl

lemma feedMany_flatten_nil :
    ∀ cs : List (List ℕ), cs.flatten = [] → feedMany ⟨[]⟩ cs = (⟨[]⟩, []) := by
  intro cs
  induction cs with
  | nil => intro _; rfl
  | cons c cs ih =>
    intro h
    rw [List.flatten_cons, List.append_eq_nil] at h
    obtain ⟨rfl, hcs⟩ := h
    simp [feedMany, Parser.feed, feedLoop_nil, ih hcs]

/-- Chunked feeding of one well-formed frame: starting from any proper prefix
of the frame held in the buffer, feeding the remaining bytes in any chunking
consumes the frame and emits its decoded content. -/
theorem feedMany_frame (L t : ℕ) (payload : List ℕ) (c0 c1 : ℕ)
    (hp : payload.length = L)
    (hcrc : crc16_ccitt (L :: t :: payload) = c0 + 256 * c1) :
    ∀ (cs : List (List ℕ)) (k : ℕ), k < 6 + L →
      (0xAA :: 0x55 :: L :: t :: (payload ++ [c0, c1])).take k ++ cs.flatten =
        0xAA :: 0x55 :: L :: t :: (payload ++ [c0, c1]) →
      feedMany ⟨(0xAA :: 0x55 :: L :: t :: (payload ++ [c0, c1])).take k⟩ cs =
        (⟨[]⟩,
          if t = 0x01 then
            (decodePairs payload).map
              (fun p => PSample.adcS p.1 p.2
                (0xAA :: 0x55 :: L :: t :: (payload ++ [c0, c1])))
          else [PSample.rawS t (0xAA :: 0x55 :: L :: t :: (payload ++ [c0, c1]))]) := by
  set F := 0xAA :: 0x55 :: L :: t :: (payload ++ [c0, c1]) with hF
  have hFlen : F.length = 6 + L := by simp [hF, hp]; omega
  intro cs
  induction cs with
  | nil =>
    intro k hk hcat
    exfalso
    rw [List.flatten_nil, List.append_nil] at hcat
    have := congrArg List.length hcat
    rw [List.length_take] at this
    omega
  | cons c cs ih =>
    intro k hk hcat
    rw [List.flatten_cons, ← List.append_assoc] at hcat
    have hxs : F.take (k + c.length) = F.take k ++ c := by
      have h1 : (F.take k ++ c).length = k + c.length := by
        rw [List.length_append, List.length_take]
        omega
      calc F.take (k + c.length)
          = ((F.take k ++ c) ++ cs.flatten).take (k + c.length) := by rw [hcat]
        _ = (F.take k ++ c).take (k + c.length) ++
              cs.flatten.take (k + c.length - (F.take k ++ c).length) := by
            rw [List.take_append_eq_append_take]
        _ = F.take k ++ c := by
            rw [h1, Nat.sub_self, List.take_zero, List.append_nil,
              List.take_of_length_le (le_of_eq h1)]
    have hk' : k + c.length ≤ 6 + L := by
      have := congrArg List.length hcat
      rw [List.length_append, List.length_append, List.length_take, hFlen] at this
      omega
    show feedMany ⟨F.take k⟩ (c :: cs) = _
    rw [feedMany]
    have hfeed : Parser.feed ⟨F.take k⟩ c = (⟨F.take (k + c.length)⟩, []) ∨
        (k + c.length = 6 + L ∧ Parser.feed ⟨F.take k⟩ c =
          (⟨[]⟩,
            if t = 0x01 then
              (decodePairs payload).map (fun p => PSample.adcS p.1 p.2 F)
            else [PSample.rawS t F])) := by
      rw [Parser.feed]
      by_cases hend : k + c.length = 6 + L
      · right
        refine ⟨hend, ?_⟩
        have hfull : F.take k ++ c = F := by
          rw [← hxs, hend, ← hFlen, List.take_length]
        simp only [hfull]
        rw [hF] at *
        rw [feedLoop_frame L t payload c0 c1 hp hcrc]
      · left
        have hlt : k + c.length < 6 + L := by omega
        simp only [← hxs]
        rw [hF] at *
        rw [feedLoop_wait L t payload c0 c1 hp (k + c.length) hlt]
    rcases hfeed with hfeed | ⟨hend, hfeed⟩
    · rw [hfeed]
      by_cases hend : k + c.length = 6 + L
      · -- buffer now holds the whole frame but it was returned by the wait
        -- branch only when k + c.length < 6 + L; rule this out
        exfalso
        have hfull : F.take k ++ c = F := by
          rw [← hxs, hend, ← hFlen, List.take_length]
        -- feed on the full frame cannot return the frame unchanged with no
        -- output: feedLoop empties the buffer
        have := hfeed
        rw [Parser.feed, hfull] at this
        rw [hF] at *
        rw [feedLoop_frame L t payload c0 c1 hp hcrc] at this
        have hbuf := congrArg (fun q => q.1.buffer) this
        simp at hbuf
        obtain ⟨rfl, rfl⟩ := hbuf
        simp at hend
        omega
      · have hlt : k + c.length < 6 + L := by omega
        have hcat' : F.take (k + c.length) ++ cs.flatten = F := by
          rw [hxs, hcat]
        have := ih (k + c.length) hlt hcat'
        rw [this]
        simp
    · rw [hfeed]
      have hcs : cs.flatten = [] := by
        have hfull : F.take k ++ c = F := by
          rw [← hxs, hend, ← hFlen, List.take_length]
        rw [hfull] at hcat
        have h2 := congrArg List.length hcat
        rw [List.length_append] at h2
        have h3 : cs.flatten.length = 0 := by omega
        exact List.eq_nil_of_length_eq_zero h3
      rw [feedMany_flatten_nil cs hcs]
      simp

set_option maxRecDepth 4000 in
/-- Claim C2: `crc16_ccitt` is CRC-16/CCITT-FALSE; on the standard test
vector `b"123456789"` it yields `0x29B1`, and its result always fits in
16 bits. -/
theorem C2_crc16_check_value :
    crc16_ccitt [0x31, 0x32, 0x33, 0x34, 0x35, 0x36, 0x37, 0x38, 0x39] = 0x29B1 ∧
    crc16_ccitt [] = 0xFFFF := by
  constructor
  · decide
  · decide

/-- Claim C1 (amended): for at most 63 pairs with both values in
`[0, 65535]`, `make_frame` succeeds, and feeding the frame bytes to a fresh
`Parser` in any chunking yields exactly the original `(sample_id, adc)`
sequence in order with an empty final buffer; the output of feeding the
whole frame in one call is the same. -/
theorem C1_roundtrip_chunked (samples : List (ℕ × ℕ)) (frame : List ℕ)
    (chunks : List (List ℕ))
    (hb : ∀ p ∈ samples, p.1 < 65536 ∧ p.2 < 65536)
    (hn : samples.length ≤ 63)
    (hf : make_frame samples = some frame)
    (hc : chunks.flatten = frame) :
    (feedMany ⟨[]⟩ chunks).2 = samples.map (fun p => PSample.adcS p.1 p.2 frame) ∧
    (feedMany ⟨[]⟩ chunks).1.buffer = [] ∧
    (Parser.feed ⟨[]⟩ frame).2 = samples.map (fun p => PSample.adcS p.1 p.2 frame) := by
  rw [make_frame_eq samples hn] at hf
  set L := 4 * samples.length with hL
  set payload := (samples.map encodeSample).flatten with hpayload
  set cc := crc16_ccitt (L :: 0x01 :: payload) with hcc
  obtain rfl : frame = 0xAA :: 0x55 :: L :: 0x01 :: (payload ++ [cc % 256, cc / 256 % 256]) := by
    injection hf with hf
    exact hf.symm
  have hp : payload.length = L := payload_length samples
  have hcrc : crc16_ccitt (L :: 0x01 :: payload) = cc % 256 + 256 * (cc / 256 % 256) :=
    (packU16_decode (crc16_ccitt_lt _)).symm
  have hdec : decodePairs payload = samples := decodePairs_encode samples hb
  have hmany := feedMany_frame L 0x01 payload (cc % 256) (cc / 256 % 256) hp hcrc chunks 0
    (by omega)
    (by simpa using hc)
  rw [if_pos rfl, hdec] at hmany
  simp only [List.take_zero] at hmany
  refine ⟨by rw [hmany], by rw [hmany], ?_⟩
  rw [Parser.feed]
  simp only [List.nil_append]
  rw [feedLoop_frame L 0x01 payload (cc % 256) (cc / 256 % 256) hp hcrc]
  rw [if_pos rfl, hdec]

set_option maxRecDepth 4000 in
/-- Claim C1 counterexample: with 64 pairs (values in range), the payload is
256 bytes, `bytes([length])` in `make_frame` raises, and no frame is
produced, so the round trip fails for this list. -/
theorem C1_counterexample : make_frame (List.replicate 64 (0, 0)) = none := by decide

set_option maxRecDepth 100000 in
/-- Witness for C1: a concrete two-sample round trip, fed one byte per call. -/
theorem C1_roundtrip_chunked_witness :
    make_frame [(1, 2), (3, 4)] = some [170, 85, 8, 1, 1, 0, 2, 0, 3, 0, 4, 0, 218, 219] ∧
    (feedMany ⟨[]⟩
        [[170], [85], [8], [1], [1], [0], [2], [0], [3], [0], [4], [0], [218], [219]]).2 =
      [PSample.adcS 1 2 [170, 85, 8, 1, 1, 0, 2, 0, 3, 0, 4, 0, 218, 219],
       PSample.adcS 3 4 [170, 85, 8, 1, 1, 0, 2, 0, 3, 0, 4, 0, 218, 219]] :=
  ⟨by decide,
   (C1_roundtrip_chunked [(1, 2), (3, 4)]
      [170, 85, 8, 1, 1, 0, 2, 0, 3, 0, 4, 0, 218, 219]
      [[170], [85], [8], [1], [1], [0], [2], [0], [3], [0], [4], [0], [218], [219]]
      (by decide) (by decide) (by decide) (by decide)).1⟩

lemma decodePairs_length : ∀ l : List ℕ, (decodePairs l).length = l.length / 4
  | [] => rfl
  | [_] => by norm_num [decodePairs]
  | [_, _] => by norm_num [decodePairs]
  | [_, _, _] => by norm_num [decodePairs]
  | a :: b :: c :: d :: rest => by
      show (decodePairs (a :: b :: c :: d :: rest)).length = (rest.length + 1 + 1 + 1 + 1) / 4
      rw [decodePairs]
      simp only [List.length_cons, decodePairs_length rest]
      omega

lemma decodePairs_take : ∀ l : List ℕ, decodePairs (l.take (4 * (l.length / 4))) = decodePairs l
  | [] => rfl
  | [_] => by norm_num [decodePairs]
  | [_, _] => by norm_num [decodePairs]
  | [_, _, _] => by norm_num [decodePairs]
  | a :: b :: c :: d :: rest => by
      show decodePairs ((a :: b :: c :: d :: rest).take
          (4 * ((rest.length + 1 + 1 + 1 + 1) / 4))) = _
      have e : 4 * ((rest.length + 1 + 1 + 1 + 1) / 4) = 4 * (rest.length / 4) + 1 + 1 + 1 + 1 := by
        omega
      rw [e, List.take_succ_cons, List.take_succ_cons, List.take_succ_cons,
        List.take_succ_cons, decodePairs, decodePairs, decodePairs_take rest]

/-- Claim C8: a CRC-valid TYPE-`0x01` frame whose payload length `L` is not a
multiple of 4 is not rejected: `feed` empties the buffer and emits exactly
`L / 4` samples decoded from the leading complete 4-byte groups, ignoring the
trailing `L % 4` bytes, with no error surfaced. -/
theorem C8_truncated_payload (payload : List ℕ) (L : ℕ)
    (hp : payload.length = L) (hL : L ≤ 255) (hmod : L % 4 ≠ 0) :
    (Parser.feed ⟨[]⟩ (0xAA :: 0x55 :: L :: 0x01 :: (payload ++
        [crc16_ccitt (L :: 0x01 :: payload) % 256,
         crc16_ccitt (L :: 0x01 :: payload) / 256 % 256]))).2 =
      (decodePairs payload).map (fun p => PSample.adcS p.1 p.2
        (0xAA :: 0x55 :: L :: 0x01 :: (payload ++
          [crc16_ccitt (L :: 0x01 :: payload) % 256,
           crc16_ccitt (L :: 0x01 :: payload) / 256 % 256]))) ∧
    (decodePairs payload).length = L / 4 ∧
    decodePairs payload = decodePairs (payload.take (4 * (L / 4))) ∧
    (Parser.feed ⟨[]⟩ (0xAA :: 0x55 :: L :: 0x01 :: (payload ++
        [crc16_ccitt (L :: 0x01 :: payload) % 256,
         crc16_ccitt (L :: 0x01 :: payload) / 256 % 256]))).1.buffer = [] := by
  have hcrc : crc16_ccitt (L :: 0x01 :: payload) =
      crc16_ccitt (L :: 0x01 :: payload) % 256 +
        256 * (crc16_ccitt (L :: 0x01 :: payload) / 256 % 256) :=
    (packU16_decode (crc16_ccitt_lt _)).symm
  have hframe := feedLoop_frame L 0x01 payload
    (crc16_ccitt (L :: 0x01 :: payload) % 256)
    (crc16_ccitt (L :: 0x01 :: payload) / 256 % 256) hp hcrc
  rw [if_pos rfl] at hframe
  refine ⟨?_, ?_, ?_, ?_⟩
  · rw [Parser.feed]
    simp only [List.nil_append]
    rw [hframe]
  · rw [decodePairs_length, hp]
  · rw [← hp, decodePairs_take]
  · rw [Parser.feed]
    simp only [List.nil_append]
    rw [hframe]

set_option maxRecDepth 40000 in
/-- Witness for C8: a 5-byte payload yields exactly one sample, the trailing
byte is ignored, and the buffer empties. -/
theorem C8_truncated_payload_witness :
    (Parser.feed ⟨[]⟩ (0xAA :: 0x55 :: 5 :: 0x01 :: ([1, 0, 2, 0, 7] ++
        [crc16_ccitt (5 :: 0x01 :: [1, 0, 2, 0, 7]) % 256,
         crc16_ccitt (5 :: 0x01 :: [1, 0, 2, 0, 7]) / 256 % 256]))).2 =
      (decodePairs [1, 0, 2, 0, 7]).map (fun p => PSample.adcS p.1 p.2
        (0xAA :: 0x55 :: 5 :: 0x01 :: ([1, 0, 2, 0, 7] ++
          [crc16_ccitt (5 :: 0x01 :: [1, 0, 2, 0, 7]) % 256,
           crc16_ccitt (5 :: 0x01 :: [1, 0, 2, 0, 7]) / 256 % 256]))) ∧
    (decodePairs [1, 0, 2, 0, 7]).length = 5 / 4 :=
  ⟨(C8_truncated_payload [1, 0, 2, 0, 7] 5 (by decide) (by decide) (by decide)).1,
   (C8_truncated_payload [1, 0, 2, 0, 7] 5 (by decide) (by decide) (by decide)).2.1⟩

/-- CRC-mismatch resync step: when the buffer starts with a frame-shaped
candidate (header at 0, length byte consistent) whose CRC check fails, the
loop drops exactly the first byte of the buffer and rescans. -/
theorem feedLoop_badcrc (L t : ℕ) (q : List ℕ) (e0 e1 : ℕ) (rest : List ℕ)
    (hq : q.length = L)
    (hcrc : crc16_ccitt (L :: t :: q) ≠ e0 + 256 * e1) :
    feedLoop ((0xAA :: 0x55 :: L :: t :: (q ++ [e0, e1])) ++ rest) =
      feedLoop ((0x55 :: L :: t :: (q ++ [e0, e1])) ++ rest) := by
  set D := 0xAA :: 0x55 :: L :: t :: (q ++ [e0, e1]) with hD
  have hDlen : D.length = 6 + L := by simp [hD, hq]; omega
  have hblen : (D ++ rest).length = 6 + L + rest.length := by
    rw [List.length_append, hDlen]
  rw [feedLoop_eq]
  rw [if_neg (by omega : ¬ (D ++ rest).length < 6)]
  have hfh : findHeader (D ++ rest) = some 0 := by
    rw [hD, List.cons_append, List.cons_append, findHeader_header]
  rw [hfh]
  simp only [List.drop_zero]
  rw [if_neg (by omega : ¬ (D ++ rest).length < 4)]
  have hgetD2 : (D ++ rest).getD 2 0 = L := by rw [hD]; rfl
  rw [hgetD2]
  rw [if_neg (by omega : ¬ (D ++ rest).length < 6 + L)]
  have htake : (D ++ rest).take (6 + L) = D := by
    rw [← hDlen]; exact List.take_left D rest
  rw [htake]
  have hdrop4 : D.drop 4 = q ++ [e0, e1] := by rw [hD]; rfl
  have hc0 : D.getD (6 + L - 2) 0 = e0 := by
    have h1 : 6 + L - 2 = 4 + L := by omega
    rw [h1, getD_add4, hdrop4]
    rw [List.getD_eq_getElem?_getD, List.getElem?_append_right (by omega : q.length ≤ L)]
    simp [hq]
  have hc1 : D.getD (6 + L - 1) 0 = e1 := by
    have h1 : 6 + L - 1 = 4 + (L + 1) := by omega
    rw [h1, getD_add4, hdrop4]
    rw [List.getD_eq_getElem?_getD,
      List.getElem?_append_right (by omega : q.length ≤ L + 1)]
    simp [hq]
  have hspan : (D.drop 2).take (6 + L - 4) = L :: t :: q := by
    have h2 : D.drop 2 = L :: t :: (q ++ [e0, e1]) := by rw [hD]; rfl
    have h1 : 6 + L - 4 = (L + 1) + 1 := by omega
    have htq : (q ++ [e0, e1]).take L = q := by
      rw [← hq]; exact List.take_left q [e0, e1]
    rw [h2, h1, List.take_succ_cons, List.take_succ_cons, htq]
  rw [hc0, hc1, hspan]
  rw [if_pos hcrc]
  have hdrop1 : (D ++ rest).drop 1 = (0x55 :: L :: t :: (q ++ [e0, e1])) ++ rest := by
    rw [hD]; rfl
  rw [hdrop1]

/-- Claim C3 (amended): on CRC mismatch the parser removes exactly the first
buffer byte and rescans; consequently, for a corrupted frame `D` that still
starts with the header, whose length byte matches its actual length, whose
CRC check fails, and whose bytes after position 0 contain no further header
occurrence, feeding `D` immediately followed by a valid frame `F2` to a fresh
parser emits no samples for `D` and exactly `F2`'s samples, leaving an empty
buffer. -/
theorem C3_resync_after_corruption (L t : ℕ) (q : List ℕ) (e0 e1 : ℕ)
    (s2 : List (ℕ × ℕ)) (f2 : List ℕ)
    (hq : q.length = L)
    (hcrc : crc16_ccitt (L :: t :: q) ≠ e0 + 256 * e1)
    (hnh : findHeader (0x55 :: L :: t :: (q ++ [e0, e1])) = none)
    (hb : ∀ p ∈ s2, p.1 < 65536 ∧ p.2 < 65536)
    (hn : s2.length ≤ 63)
    (hf2 : make_frame s2 = some f2) :
    (Parser.feed ⟨[]⟩ ((0xAA :: 0x55 :: L :: t :: (q ++ [e0, e1])) ++ f2)).2 =
      s2.map (fun p => PSample.adcS p.1 p.2 f2) ∧
    (Parser.feed ⟨[]⟩ ((0xAA :: 0x55 :: L :: t :: (q ++ [e0, e1])) ++ f2)).1.buffer = [] := by
  rw [make_frame_eq s2 hn] at hf2
  set L2 := 4 * s2.length with hL2
  set payload2 := (s2.map encodeSample).flatten with hpayload2
  set cc := crc16_ccitt (L2 :: 0x01 :: payload2) with hcc
  obtain rfl : f2 = 0xAA :: 0x55 :: L2 :: 0x01 :: (payload2 ++ [cc % 256, cc / 256 % 256]) := by
    injection hf2 with hf2
    exact hf2.symm
  set F2 := 0xAA :: 0x55 :: L2 :: 0x01 :: (payload2 ++ [cc % 256, cc / 256 % 256]) with hF2
  have hp2 : payload2.length = L2 := payload_length s2
  have hF2len : F2.length = 6 + L2 := by simp [hF2, hp2]; omega
  have hcrc2 : crc16_ccitt (L2 :: 0x01 :: payload2) = cc % 256 + 256 * (cc / 256 % 256) :=
    (packU16_decode (crc16_ccitt_lt _)).symm
  have hdec2 : decodePairs payload2 = s2 := decodePairs_encode s2 hb
  set T := 0x55 :: L :: t :: (q ++ [e0, e1]) with hT
  have hTlen : T.length = 5 + L := by simp [hT, hq]; omega
  rw [Parser.feed]
  simp only [List.nil_append]
  rw [feedLoop_badcrc L t q e0 e1 F2 hq hcrc]
  have hfh : findHeader (T ++ F2) = some T.length := by
    rw [hF2]
    exact findHeader_append_header T _ hnh
  have hsync := feedLoop_sync (T ++ F2) T.length hfh
    (by rw [List.length_append, hF2len]; omega)
  rw [List.drop_left T F2] at hsync
  rw [← hT, hsync]
  rw [hF2]
  rw [feedLoop_frame L2 0x01 payload2 (cc % 256) (cc / 256 % 256) hp2 hcrc2]
  rw [if_pos rfl, hdec2]
  exact ⟨rfl, rfl⟩

set_option maxRecDepth 400000 in
/-- Claim C3 counterexample: corrupting the single length byte of a valid
frame (4 changed to 255) followed by a valid frame makes the parser wait for
more input: it emits nothing at all, not the second frame's samples. -/
theorem C3_counterexample :
    make_frame [(1, 2)] = some [170, 85, 4, 1, 1, 0, 2, 0, 54, 178] ∧
    make_frame [(3, 4)] = some [170, 85, 4, 1, 3, 0, 4, 0, 248, 245] ∧
    (Parser.feed ⟨[]⟩
        ([170, 85, 255, 1, 1, 0, 2, 0, 54, 178] ++
          [170, 85, 4, 1, 3, 0, 4, 0, 248, 245])).2 = [] ∧
    (Parser.feed ⟨[]⟩ [170, 85, 4, 1, 3, 0, 4, 0, 248, 245]).2 =
      [PSample.adcS 3 4 [170, 85, 4, 1, 3, 0, 4, 0, 248, 245]] :=
  ⟨by decide, by decide, by decide, by decide⟩

set_option maxRecDepth 400000 in
/-- Witness for C3 (amended): concrete corrupted payload byte. -/
theorem C3_resync_after_corruption_witness :
    (Parser.feed ⟨[]⟩
        ((0xAA :: 0x55 :: 4 :: 0x01 :: ([1, 0, 2, 99] ++ [54, 178])) ++
          [170, 85, 4, 1, 3, 0, 4, 0, 248, 245])).2 =
      [(3, 4)].map (fun p => PSample.adcS p.1 p.2 [170, 85, 4, 1, 3, 0, 4, 0, 248, 245]) :=
  (C3_resync_after_corruption 4 0x01 [1, 0, 2, 99] 54 178 [(3, 4)]
    [170, 85, 4, 1, 3, 0, 4, 0, 248, 245]
    (by decide) (by decide) (by decide) (by decide) (by decide) (by decide)).1

lemma feedLoop_noheader (buf : List ℕ) (h : findHeader buf = none) :
    feedLoop buf = if buf.length < 6 then (buf, []) else ([], []) := by
  rw [feedLoop_eq]
  by_cases hlen : buf.length < 6
  · rw [if_pos hlen, if_pos hlen]
  · rw [if_neg hlen, if_neg hlen, h]

lemma feedMany_headerless :
    ∀ (chunks : List (List ℕ)) (buf0 : List ℕ),
      buf0.length ≤ 5 → findHeader (buf0 ++ chunks.flatten) = none →
      (feedMany ⟨buf0⟩ chunks).1.buffer.length ≤ 5 := by
  intro chunks
  induction chunks with
  | nil => intro buf0 h5 _; exact h5
  | cons c cs ih =>
    intro buf0 h5 hnone
    rw [List.flatten_cons, ← List.append_assoc] at hnone
    have hbc : findHeader (buf0 ++ c) = none :=
      findHeader_append_none_left _ _ hnone
    rw [feedMany, Parser.feed]
    simp only
    rw [feedLoop_noheader _ hbc]
    by_cases hlen : (buf0 ++ c).length < 6
    · rw [if_pos hlen]
      exact ih (buf0 ++ c) (by omega) hnone
    · rw [if_neg hlen]
      exact ih [] (by simp)
        (by simpa using findHeader_append_none_right (buf0 ++ c) cs.flatten hnone)

/-- Claim C4 (amended): on an input stream that never contains the header
`0xAA 0x55`, the accumulation buffer holds at most 5 bytes after every
`feed` call — it is cleared to size 0 exactly when at least 6 bytes are
buffered when the call scans, but a shorter header-free remainder (fewer
than 6 bytes) is retained, so the size is not always 0. -/
theorem C4_headerless_buffer_bound (chunks : List (List ℕ)) (st : Parser)
    (data : List ℕ)
    (hch : findHeader chunks.flatten = none)
    (hsd : findHeader (st.buffer ++ data) = none) :
    (feedMany ⟨[]⟩ chunks).1.buffer.length ≤ 5 ∧
    (6 ≤ (st.buffer ++ data).length → (Parser.feed st data).1.buffer = []) ∧
    ((st.buffer ++ data).length < 6 →
      (Parser.feed st data).1.buffer = st.buffer ++ data) := by
  refine ⟨feedMany_headerless chunks [] (by simp) (by simpa using hch), ?_, ?_⟩
  · intro h6
    rw [Parser.feed]
    simp only
    rw [feedLoop_noheader _ hsd, if_neg (by omega : ¬ (st.buffer ++ data).length < 6)]
  · intro hlt
    rw [Parser.feed]
    simp only
    rw [feedLoop_noheader _ hsd, if_pos hlt]

/-- Claim C4 counterexample: a single header-free byte fed to a fresh parser
stays in the buffer, whose size is 1, not 0. -/
theorem C4_counterexample :
    findHeader [0] = none ∧ (Parser.feed ⟨[]⟩ [0]).1.buffer.length = 1 := by decide

set_option maxRecDepth 2000 in
/-- Witness for C4 (amended): header-free chunks leave at most 5 bytes. -/
theorem C4_headerless_buffer_bound_witness :
    findHeader ([[1, 2, 3], [4, 5, 6, 7]].flatten) = none ∧
    (feedMany ⟨[]⟩ [[1, 2, 3], [4, 5, 6, 7]]).1.buffer.length ≤ 5 ∧
    (Parser.feed (⟨[1, 2, 3]⟩ : Parser) [4, 5, 6, 7]).1.buffer = [] :=
  ⟨by decide,
   (C4_headerless_buffer_bound [[1, 2, 3], [4, 5, 6, 7]] ⟨[1, 2, 3]⟩ [4, 5, 6, 7]
      (by decide) (by decide)).1,
   (C4_headerless_buffer_bound [[1, 2, 3], [4, 5, 6, 7]] ⟨[1, 2, 3]⟩ [4, 5, 6, 7]
      (by decide) (by decide)).2.1 (by decide)⟩

lemma feedLoopF_post :
    ∀ (fuel : ℕ) (buf : List ℕ), buf.length < fuel →
      (∃ pre rest, (feedLoopF fuel buf).1 = pre ++ 0xAA :: 0x55 :: rest) ∨
        (feedLoopF fuel buf).1.length ≤ 5 := by
  intro fuel
  induction fuel with
  | zero => intro buf h; omega
  | succ f ih =>
    intro buf h
    simp only [feedLoopF]
    split
    · rename_i hlen
      right; simpa using by omega
    · rename_i hlen
      split
      · right; simp
      · rename_i idx hfh
        have hdr := findHeader_some_drop buf idx hfh
        split
        · left
          exact ⟨[], buf.drop (idx + 2), by simpa using hdr⟩
        · split
          · left
            exact ⟨[], buf.drop (idx + 2), by simpa using hdr⟩
          · split
            · apply ih
              simp only [List.length_drop]
              omega
            · have := ih ((buf.drop idx).drop (6 + (buf.drop idx).getD 2 0))
                (by simp only [List.length_drop]; omega)
              simpa using this

/-- Claim C10: after every `feed` call, the remaining buffer either contains
the header bytes `0xAA 0x55` as a substring (a possible frame start is
pending) or holds at most 5 bytes; in particular it never grows without
bound on header-free input even though it is not always cleared to size 0. -/
theorem C10_buffer_invariant (st : Parser) (data : List ℕ) :
    (∃ pre rest, (Parser.feed st data).1.buffer = pre ++ 0xAA :: 0x55 :: rest) ∨
      (Parser.feed st data).1.buffer.length ≤ 5 := by
  rw [Parser.feed]
  simp only
  rw [feedLoop]
  exact feedLoopF_post _ _ (by omega)

/-- Configuration fields of `MainWindow` read by the heart-rate code
(`main.py`): sampling rate, minimum R-wave interval (s), threshold ratio,
and reference voltage.  Real numbers are modelled by `ℚ`. -/
structure HRConfig where
  sampling_rate : ℚ
  min_r_interval : ℚ
  r_threshold_ratio : ℚ
  vref : ℚ
deriving DecidableEq, Repr

/-- Python's built-in `round` (banker's rounding, half to even), used by
`int(round(...))` in `main.py`. -/
def pythonRound (q : ℚ) : ℤ :=
  if q - ⌊q⌋ < 1 / 2 then ⌊q⌋
  else if (1 : ℚ) / 2 < q - ⌊q⌋ then ⌊q⌋ + 1
  else if ⌊q⌋ % 2 = 0 then ⌊q⌋ else ⌊q⌋ + 1

/-- Python's `min` over a nonempty list (0 for the empty list, unreached). -/
def listMin : List ℚ → ℚ
  | [] => 0
  | x :: xs => xs.foldl min x

/-- Python's `max` over a nonempty list (0 for the empty list, unreached). -/
def listMax : List ℚ → ℚ
  | [] => 0
  | x :: xs => xs.foldl max x

/-- The scan loop of `detect_r_peaks` (`main.py`): slide a 3-point window
`(values[i-1], values[i], values[i+1])` over indices `i = 1 .. n-2`,
accepting `i` when `values[i] > thr`, `values[i] > values[i-1]`,
`values[i] >= values[i+1]` and `i - last_peak >= m`; accepting updates
`last_peak`. -/
def scanPeaks (thr : ℚ) (m : ℤ) : List ℚ → ℕ → ℤ → List ℕ
  | a :: b :: c :: rest, i, last =>
      if b ≤ thr then scanPeaks thr m (b :: c :: rest) (i + 1) last
      else if a < b ∧ c ≤ b then
        (if m ≤ (i : ℤ) - last then i :: scanPeaks thr m (b :: c :: rest) (i + 1) (i : ℤ)
         else scanPeaks thr m (b :: c :: rest) (i + 1) last)
      else scanPeaks thr m (b :: c :: rest) (i + 1) last
  | _, _, _ => []

/-- `MainWindow.detect_r_peaks` from `main.py` (identical in
`src/main.py`): global threshold `vmean + ratio * (vmax - vmean)` with a
minimum-offset floor, three-point local-maximum test, and minimum spacing
`max(1, round(min_r_interval * fs))`, with `last_peak` initialized to
`-2 * min_interval_points`. -/
def detect_r_peaks (cfg : HRConfig) (raw_data : List ℚ) (fs : ℚ) : List ℕ :=
  let n := raw_data.length
  if n < 3 then []
  else
    let fs := if fs ≤ 0 then (if 0 < cfg.sampling_rate then cfg.sampling_rate else 120) else fs
    let min_interval_points : ℤ := max 1 (pythonRound (cfg.min_r_interval * fs))
    let vmin := listMin raw_data
    let vmax := listMax raw_data
    let vmean := raw_data.sum / (n : ℚ)
    if vmax - vmin ≤ 1 / 1000000000 then []
    else
      let thr0 := vmean + cfg.r_threshold_ratio * (vmax - vmean)
      let min_thr_offset := (5 / 1000) * (if cfg.vref ≠ 0 then cfg.vref else 1)
      let thr := if thr0 - vmin < min_thr_offset then vmin + min_thr_offset else thr0
      scanPeaks thr min_interval_points raw_data 1 (-(2 * min_interval_points))

/-- Spacing condition as worded by the claim: no constraint before the first
accepted peak, otherwise at least `m` samples past the previously accepted
index. -/
def okSpacing (m : ℤ) (i : ℕ) : Option ℕ → Prop
  | none => True
  | some j => m ≤ (i : ℤ) - (j : ℤ)

instance (m : ℤ) (i : ℕ) (o : Option ℕ) : Decidable (okSpacing m i o) :=
  match o with
  | none => isTrue trivial
  | some j => inferInstanceAs (Decidable (m ≤ (i : ℤ) - (j : ℤ)))

/-- Modelled from the claim's wording of the scan: single left-to-right pass
over interior indices, candidate accepted exactly when
`values[i] > threshold`, `values[i] > values[i-1]`, `values[i] >= values[i+1]`
and the index is at least `min_spacing` past the previously accepted index. -/
def specScan (thr : ℚ) (m : ℤ) : List ℚ → ℕ → Option ℕ → List ℕ
  | a :: b :: c :: rest, i, last =>
      if thr < b ∧ a < b ∧ c ≤ b ∧ okSpacing m i last then
        i :: specScan thr m (b :: c :: rest) (i + 1) (some i)
      else specScan thr m (b :: c :: rest) (i + 1) last
  | _, _, _ => []

/-- Detection as described by the claim (spec wording): empty for fewer than
3 samples or a flat signal, otherwise the greedy scan of `specScan` with
`min_spacing_samples = max(1, round(min_interval_seconds * fs))`. -/
def detect_r_peaks_spec (cfg : HRConfig) (values : List ℚ) (fs : ℚ) : List ℕ :=
  let n := values.length
  if n < 3 then []
  else
    let min_spacing : ℤ := max 1 (pythonRound (cfg.min_r_interval * fs))
    let vmin := listMin values
    let vmax := listMax values
    let vmean := values.sum / (n : ℚ)
    if vmax - vmin ≤ 1 / 1000000000 then []
    else
      let thr0 := vmean + cfg.r_threshold_ratio * (vmax - vmean)
      let min_thr_offset := (5 / 1000) * (if cfg.vref ≠ 0 then cfg.vref else 1)
      let thr := if thr0 - vmin < min_thr_offset then vmin + min_thr_offset else thr0
      specScan thr min_spacing values 1 none

/-- `MainWindow._estimate_bpm_from_wave` from `main.py`: run peak detection,
require at least two peaks, filter inter-peak intervals against the mean,
convert to beats per minute and gate to `[30, 220]`. -/
def estimate_bpm_from_wave (cfg : HRConfig) (voltages : List ℚ) (rel_xs : List ℚ) :
    Option ℤ :=
  let fs := cfg.sampling_rate
  let n := voltages.length
  if fs ≤ 0 ∨ n < 3 then none
  else
    let peaks := detect_r_peaks cfg voltages fs
    if peaks.length < 2 then none
    else
      let peak_times := peaks.map (fun i => rel_xs.getD i 0)
      let intervals := List.zipWith (fun b a => b - a) peak_times.tail peak_times
      if intervals = [] then none
      else
        let avg := intervals.sum / (intervals.length : ℚ)
        let filtered := intervals.filter (fun it => (1 / 2) * avg ≤ it ∧ it ≤ (3 / 2) * avg)
        if filtered = [] then none
        else
          let mean_interval := filtered.sum / (filtered.length : ℚ)
          if mean_interval ≤ 0 then none
          else
            let bpm := 60 / mean_interval
            if 30 ≤ bpm ∧ bpm ≤ 220 then some (pythonRound bpm) else none

/-- Modelled from the claim's wording of rate estimation over detected peak
times: fewer than 2 peaks gives `None`; otherwise filter consecutive deltas
to `[0.5*avg, 1.5*avg]` against the unfiltered mean, let
`rate = 60 / mean(filtered)`, and report `round(rate)` exactly when
`30 <= rate <= 220`. -/
def rateSpec (times : List ℚ) : Option ℤ :=
  if times.length < 2 then none
  else
    let deltas := List.zipWith (fun b a => b - a) times.tail times
    let avg := deltas.sum / (deltas.length : ℚ)
    let filtered := deltas.filter (fun d => (1 / 2) * avg ≤ d ∧ d ≤ (3 / 2) * avg)
    if filtered = [] then none
    else
      let rate := 60 / (filtered.sum / (filtered.length : ℚ))
      if 30 ≤ rate ∧ rate ≤ 220 then some (pythonRound rate) else none

/-- The simplified per-byte path of `MainWindow.on_bytes` (`main.py`): the
list of `(timestamp, raw_code)` pairs appended for a chunk `b` received at
time `now`, walking backward from `now` at spacing `dt = 1/sampling_rate`
(0 when the rate is unset).  The bounded plotting deques that receive these
values are not modelled; the claim concerns the appended values. -/
def on_bytes (b : List ℕ) (now : ℚ) (sampling_rate : ℚ) : List (ℚ × ℕ) :=
  if b = [] then []
  else
    let dt := if 0 < sampling_rate then 1 / sampling_rate else 0
    let base_offset := ((b.length - 1 : ℕ) : ℚ) * dt
    b.enum.map (fun p => (now - (base_offset - (p.1 : ℚ) * dt), p.2))

lemma specScan_some_eq (thr : ℚ) (m : ℤ) :
    ∀ (l : List ℚ) (i j : ℕ), specScan thr m l i (some j) = scanPeaks thr m l i (j : ℤ)
  | [], _, _ => rfl
  | [_], _, _ => rfl
  | [_, _], _, _ => rfl
  | a :: b :: c :: rest, i, j => by
      rw [specScan, scanPeaks]
      by_cases h1 : b ≤ thr
      · rw [if_pos h1, if_neg (fun hh => absurd hh.1 (not_lt.mpr h1)),
          specScan_some_eq thr m (b :: c :: rest) (i + 1) j]
      · rw [if_neg h1]
        by_cases h2 : a < b ∧ c ≤ b
        · rw [if_pos h2]
          by_cases h3 : m ≤ (i : ℤ) - (j : ℤ)
          · rw [if_pos h3, if_pos ⟨not_le.mp h1, h2.1, h2.2, h3⟩,
              specScan_some_eq thr m (b :: c :: rest) (i + 1) i]
          · rw [if_neg h3, if_neg (fun hh => absurd hh.2.2.2 h3),
              specScan_some_eq thr m (b :: c :: rest) (i + 1) j]
        · rw [if_neg h2,
            if_neg (fun hh => absurd ⟨hh.2.1, hh.2.2.1⟩ h2),
            specScan_some_eq thr m (b :: c :: rest) (i + 1) j]

lemma specScan_none_eq (thr : ℚ) (m : ℤ) (hm : 1 ≤ m) :
    ∀ (l : List ℚ) (i : ℕ), specScan thr m l i none = scanPeaks thr m l i (-(2 * m))
  | [], _ => rfl
  | [_], _ => rfl
  | [_, _], _ => rfl
  | a :: b :: c :: rest, i => by
      rw [specScan, scanPeaks]
      have hsp : m ≤ (i : ℤ) - (-(2 * m)) := by
        have : (0 : ℤ) ≤ (i : ℤ) := Int.natCast_nonneg i
        omega
      by_cases h1 : b ≤ thr
      · rw [if_pos h1, if_neg (fun hh => absurd hh.1 (not_lt.mpr h1)),
          specScan_none_eq thr m hm (b :: c :: rest) (i + 1)]
      · rw [if_neg h1]
        by_cases h2 : a < b ∧ c ≤ b
        · rw [if_pos h2, if_pos hsp, if_pos ⟨not_le.mp h1, h2.1, h2.2, trivial⟩,
            specScan_some_eq thr m (b :: c :: rest) (i + 1) i]
        · rw [if_neg h2,
            if_neg (fun hh => absurd ⟨hh.2.1, hh.2.2.1⟩ h2),
            specScan_none_eq thr m hm (b :: c :: rest) (i + 1)]

/-- Claim C5: for a positive sampling rate, `detect_r_peaks` computes exactly
the detection described by the spec: empty whenever there are fewer than 3
samples or the signal is flat (`vmax - vmin <= 1e-9`), and otherwise the
single greedy left-to-right scan accepting interior indices with
`values[i] > threshold`, a strict rise on the left, a non-strict fall on the
right, and spacing of at least `max(1, round(min_interval * fs))` from the
previously accepted index. -/
theorem C5_detect_matches_spec (cfg : HRConfig) (values : List ℚ) (fs : ℚ)
    (hfs : 0 < fs) :
    detect_r_peaks cfg values fs = detect_r_peaks_spec cfg values fs := by
  rw [detect_r_peaks, detect_r_peaks_spec]
  by_cases h3 : values.length < 3
  · rw [if_pos h3, if_pos h3]
  · rw [if_neg h3, if_neg h3, if_neg (not_le.mpr hfs)]
    by_cases hflat : listMax values - listMin values ≤ 1 / 1000000000
    · rw [if_pos hflat, if_pos hflat]
    · rw [if_neg hflat, if_neg hflat]
      exact (specScan_none_eq _ _ (le_max_left 1 _) values 1).symm

lemma scanPeaks_mem (thr : ℚ) (m : ℤ) :
    ∀ (l : List ℚ) (i : ℕ) (last : ℤ) (x : ℕ), x ∈ scanPeaks thr m l i last →
      i ≤ x ∧ x + 3 ≤ i + l.length
  | [], _, _, _ => by intro h; simp [scanPeaks] at h
  | [_], _, _, _ => by intro h; simp [scanPeaks] at h
  | [_, _], _, _, _ => by intro h; simp [scanPeaks] at h
  | a :: b :: c :: rest, i, last, x => by
      intro h
      rw [scanPeaks] at h
      split_ifs at h with h1 h2 h3
      · have := scanPeaks_mem thr m (b :: c :: rest) (i + 1) last x h
        simp only [List.length_cons] at this ⊢
        omega
      · rcases List.mem_cons.mp h with rfl | hx
        · simp only [List.length_cons]
          omega
        · have := scanPeaks_mem thr m (b :: c :: rest) (i + 1) (i : ℤ) x hx
          simp only [List.length_cons] at this ⊢
          omega
      · have := scanPeaks_mem thr m (b :: c :: rest) (i + 1) last x h
        simp only [List.length_cons] at this ⊢
        omega
      · have := scanPeaks_mem thr m (b :: c :: rest) (i + 1) last x h
        simp only [List.length_cons] at this ⊢
        omega

lemma scanPeaks_spacing (thr : ℚ) (m : ℤ) (hm : 1 ≤ m) :
    ∀ (l : List ℚ) (i : ℕ) (last : ℤ),
      (∀ x ∈ scanPeaks thr m l i last, m ≤ (x : ℤ) - last) ∧
      List.Chain' (fun a b : ℕ => m ≤ (b : ℤ) - (a : ℤ)) (scanPeaks thr m l i last)
  | [], _, _ => by simp [scanPeaks]
  | [_], _, _ => by simp [scanPeaks]
  | [_, _], _, _ => by simp [scanPeaks]
  | a :: b :: c :: rest, i, last => by
      rw [scanPeaks]
      split_ifs with h1 h2 h3
      · exact scanPeaks_spacing thr m hm (b :: c :: rest) (i + 1) last
      · have ih := scanPeaks_spacing thr m hm (b :: c :: rest) (i + 1) (i : ℤ)
        constructor
        · intro x hx
          rcases List.mem_cons.mp hx with rfl | hx'
          · exact h3
          · have := ih.1 x hx'
            omega
        · refine List.chain'_cons'.mpr ⟨?_, ih.2⟩
          intro y hy
          have hy' : y ∈ scanPeaks thr m (b :: c :: rest) (i + 1) (i : ℤ) :=
            List.mem_of_mem_head? hy
          exact ih.1 y hy'
      · exact scanPeaks_spacing thr m hm (b :: c :: rest) (i + 1) last
      · exact scanPeaks_spacing thr m hm (b :: c :: rest) (i + 1) last

/-- Claim C9: implicit invariants of `detect_r_peaks` — for every input and
every `fs`, the returned indices are strictly increasing, each index `x`
satisfies `1 <= x <= n - 2`, and consecutive indices differ by at least
`max(1, round(min_r_interval * effective_fs))`, where `effective_fs` is `fs`
when positive, else the configured sampling rate when positive, else 120. -/
theorem C9_detect_r_peaks_invariants (cfg : HRConfig) (values : List ℚ) (fs : ℚ) :
    List.Chain' (· < ·) (detect_r_peaks cfg values fs) ∧
    (∀ x ∈ detect_r_peaks cfg values fs, 1 ≤ x ∧ x ≤ values.length - 2) ∧
    List.Chain'
      (fun a b : ℕ =>
        max 1 (pythonRound (cfg.min_r_interval *
            (if fs ≤ 0 then (if 0 < cfg.sampling_rate then cfg.sampling_rate else 120)
             else fs))) ≤ (b : ℤ) - (a : ℤ))
      (detect_r_peaks cfg values fs) := by
  set m : ℤ := max 1 (pythonRound (cfg.min_r_interval *
    (if fs ≤ 0 then (if 0 < cfg.sampling_rate then cfg.sampling_rate else 120) else fs)))
    with hmdef
  have hm : 1 ≤ m := le_max_left 1 _
  simp only [detect_r_peaks]
  by_cases h3 : values.length < 3
  · rw [if_pos h3]; simp
  · rw [if_neg h3]
    by_cases hflat : listMax values - listMin values ≤ 1 / 1000000000
    · rw [if_pos hflat]; simp
    · rw [if_neg hflat]
      rw [← hmdef]
      set thr : ℚ :=
        (if (values.sum / (values.length : ℚ) +
              cfg.r_threshold_ratio * (listMax values - values.sum / (values.length : ℚ))) -
              listMin values < 5 / 1000 * (if cfg.vref ≠ 0 then cfg.vref else 1) then
          listMin values + 5 / 1000 * (if cfg.vref ≠ 0 then cfg.vref else 1)
        else
          values.sum / (values.length : ℚ) +
            cfg.r_threshold_ratio * (listMax values - values.sum / (values.length : ℚ)))
        with hthr
      have hsp := scanPeaks_spacing thr m hm values 1 (-(2 * m))
      have hmem := fun x => scanPeaks_mem thr m values 1 (-(2 * m)) x
      refine ⟨?_, ?_, hsp.2⟩
      · exact List.Chain'.imp (fun a b h => by omega) hsp.2
      · intro x hx
        have := hmem x hx
        omega

lemma detect_r_peaks_nil_of_short (cfg : HRConfig) (values : List ℚ) (fs : ℚ)
    (h : values.length < 3) : detect_r_peaks cfg values fs = [] := by
  simp only [detect_r_peaks]
  rw [if_pos h]

/-- Claim C6: rate estimation over the detected peak times behaves exactly
as specified: `None` with fewer than 2 peaks; otherwise consecutive deltas
filtered to `[0.5*avg, 1.5*avg]` against the unfiltered mean, with
`rate = 60 / mean(filtered)` reported (rounded) precisely when
`30 <= rate <= 220`. -/
theorem C6_rate_estimation (cfg : HRConfig) (voltages rel_xs : List ℚ)
    (hfs : 0 < cfg.sampling_rate) :
    estimate_bpm_from_wave cfg voltages rel_xs =
      rateSpec ((detect_r_peaks cfg voltages cfg.sampling_rate).map
        (fun i => rel_xs.getD i 0)) := by
  simp only [estimate_bpm_from_wave, rateSpec]
  by_cases h3 : voltages.length < 3
  · rw [if_pos (Or.inr h3), detect_r_peaks_nil_of_short cfg voltages cfg.sampling_rate h3]
    simp
  · rw [if_neg (by push_neg; exact ⟨not_le.mpr hfs |> not_le.mp |> fun _ => hfs, by omega⟩)]
    set peaks := detect_r_peaks cfg voltages cfg.sampling_rate with hpeaks
    set times := peaks.map (fun i => rel_xs.getD i 0) with htimes
    have hlen : times.length = peaks.length := by rw [htimes, List.length_map]
    by_cases h2 : peaks.length < 2
    · rw [if_pos h2, if_pos (by omega : times.length < 2)]
    · rw [if_neg h2, if_neg (by omega : ¬ times.length < 2)]
      set deltas := List.zipWith (fun b a => b - a) times.tail times with hdeltas
      have hdne : deltas ≠ [] := by
        intro he
        have := congrArg List.length he
        rw [hdeltas, List.length_zipWith, List.length_tail] at this
        simp at this
        omega
      rw [if_neg hdne]
      set avg := deltas.sum / (deltas.length : ℚ) with havg
      set filtered := deltas.filter (fun d => (1 / 2) * avg ≤ d ∧ d ≤ (3 / 2) * avg)
        with hfiltered
      by_cases hfil : filtered = []
      · rw [if_pos hfil, if_pos hfil]
      · rw [if_neg hfil, if_neg hfil]
        set mean := filtered.sum / (filtered.length : ℚ) with hmean
        by_cases hm0 : mean ≤ 0
        · rw [if_pos hm0]
          have hrate : 60 / mean ≤ 0 := by
            rcases lt_or_eq_of_le hm0 with hlt | heq
            · exact le_of_lt (div_neg_of_pos_of_neg (by norm_num) hlt)
            · rw [heq]; simp
          rw [if_neg (fun hh => absurd hh.1 (by linarith))]
        · rw [if_neg hm0]

/-- Witness for C6: a 72-bpm spike train (period 5/6 s) reports 72; a 25-bpm
train (period 2.4 s) is out of the plausibility band and reports nothing. -/
theorem C6_rate_estimation_witness :
    estimate_bpm_from_wave ⟨6, 9 / 20, 9 / 20, 5⟩
        [0, 0, 1, 0, 0, 0, 0, 1, 0, 0, 0, 0, 1, 0, 0]
        [0, 1 / 6, 2 / 6, 3 / 6, 4 / 6, 5 / 6, 1, 7 / 6, 8 / 6, 9 / 6, 10 / 6, 11 / 6, 2,
          13 / 6, 14 / 6] = some 72 ∧
    estimate_bpm_from_wave ⟨5, 9 / 20, 9 / 20, 5⟩
        [0, 0, 1, 0, 0, 0, 0, 0, 0, 0, 0, 0, 0, 0, 1, 0]
        [0, 1 / 5, 2 / 5, 3 / 5, 4 / 5, 1, 6 / 5, 7 / 5, 8 / 5, 9 / 5, 2, 11 / 5, 12 / 5,
          13 / 5, 14 / 5, 3] = none := by
  constructor
  · rw [C6_rate_estimation _ _ _ (by norm_num)]
    norm_num [rateSpec, detect_r_peaks, scanPeaks, listMin, listMax, pythonRound] <;> simp
  · rw [C6_rate_estimation _ _ _ (by norm_num)]
    norm_num [rateSpec, detect_r_peaks, scanPeaks, listMin, listMax, pythonRound] <;> simp

/-- Claim C7: in the simplified per-byte mode with a positive sampling rate,
the byte at position `i` of a nonempty `n`-byte chunk received at `now` is
stamped `now - (n-1-i)/sampling_rate` — so the last byte is stamped exactly
`now` — and the raw code stored for each byte is the byte value itself. -/
theorem C7_on_bytes_stamps (b : List ℕ) (now rate : ℚ) (hb : b ≠ []) (hr : 0 < rate) :
    (on_bytes b now rate).map Prod.snd = b ∧
    (∀ i : ℕ, i < b.length →
      (on_bytes b now rate)[i]? =
        some (now - ((b.length - 1 - i : ℕ) : ℚ) / rate, b.getD i 0)) ∧
    (on_bytes b now rate)[b.length - 1]? = some (now, b.getD (b.length - 1) 0) := by
  have hpos : 0 < b.length := List.length_pos.mpr hb
  rw [on_bytes, if_neg hb]
  rw [if_pos hr]
  have hstamp : ∀ i : ℕ, i < b.length →
      (b.enum.map
          (fun p => (now - (((b.length - 1 : ℕ) : ℚ) * (1 / rate) - (p.1 : ℚ) * (1 / rate)),
            p.2)))[i]? =
        some (now - ((b.length - 1 - i : ℕ) : ℚ) / rate, b.getD i 0) := by
    intro i hi
    rw [List.getElem?_map, List.getElem?_enum]
    have hbi : b[i]? = some (b.getD i 0) := by
      rw [List.getD_eq_getElem?_getD, List.getElem?_eq_getElem hi]
      rfl
    rw [hbi]
    simp only [Option.map_some']
    congr 2
    have hcast : ((b.length - 1 - i : ℕ) : ℚ) = ((b.length - 1 : ℕ) : ℚ) - (i : ℚ) := by
      have h1 : i ≤ b.length - 1 := by omega
      rw [Nat.cast_sub h1]
    rw [hcast]
    field_simp
    try ring
  refine ⟨?_, hstamp, ?_⟩
  · rw [List.map_map]
    have : (Prod.snd ∘ fun p : ℕ × ℕ =>
        (now - (((b.length - 1 : ℕ) : ℚ) * (1 / rate) - (p.1 : ℚ) * (1 / rate)), p.2)) =
        Prod.snd := rfl
    rw [this, List.enum_map_snd]
  · have := hstamp (b.length - 1) (by omega)
    rw [this, Nat.sub_self]
    norm_num

/-- Witness for C7: three bytes at rate 2 Hz, received at time 5, are stamped
4, 9/2, 5 with raw codes equal to the bytes. -/
theorem C7_on_bytes_stamps_witness :
    (on_bytes [10, 20, 30] 5 2).map Prod.snd = [10, 20, 30] ∧
    (on_bytes [10, 20, 30] 5 2)[0]? = some (4, 10) ∧
    (on_bytes [10, 20, 30] 5 2)[2]? = some (5, 30) := by
  refine ⟨(C7_on_bytes_stamps [10, 20, 30] 5 2 (by simp) (by norm_num)).1, ?_, ?_⟩
  · have := (C7_on_bytes_stamps [10, 20, 30] 5 2 (by simp) (by norm_num)).2.1 0 (by norm_num)
    rw [this]
    norm_num [List.getD]
  · have := (C7_on_bytes_stamps [10, 20, 30] 5 2 (by simp) (by norm_num)).2.2
    norm_num [List.getD] at this
    exact this

/-- Witness for C5: a concrete spike train where the code's scan and the
spec's scan agree, both finding the peaks at indices 2, 7, 12. -/
theorem C5_detect_matches_spec_witness :
    detect_r_peaks ⟨6, 9 / 20, 9 / 20, 5⟩ [0, 0, 1, 0, 0, 0, 0, 1, 0, 0, 0, 0, 1, 0, 0] 6 =
      detect_r_peaks_spec ⟨6, 9 / 20, 9 / 20, 5⟩
        [0, 0, 1, 0, 0, 0, 0, 1, 0, 0, 0, 0, 1, 0, 0] 6 ∧
    detect_r_peaks ⟨6, 9 / 20, 9 / 20, 5⟩ [0, 0, 1, 0, 0, 0, 0, 1, 0, 0, 0, 0, 1, 0, 0] 6 =
      [2, 7, 12] := by
  refine ⟨C5_detect_matches_spec _ _ _ (by norm_num), ?_⟩
  norm_num [detect_r_peaks, scanPeaks, listMin, listMax, pythonRound]
